import Mathlib

/-!
Verification of the `int_titan::integer` arbitrary-precision integer type
(`src/integer.h`): a little-endian vector of base-2^32 digits plus a sign
flag, with school-book arithmetic and a hex text codec.

The C++ code is embedded shallowly: `uint32_t` digits become `Nat` values
taken modulo `2 ^ 32` wherever the machine arithmetic can wrap, digit
vectors become `List Nat`, strings become `List Char`, and the one C++
`throw` (division by zero) becomes an `Option` result.  The mutually
recursive signed add/subtract dispatch does not terminate on every input
in the source (see `is_less_than` on two equal negative values), so the
embedding gives the pair an explicit fuel argument; fuel 8 is more than
the dispatch depth of every terminating source path.
-/

namespace IntTitan

/-- The base of the digit representation, `B = 2^32`. -/
def B : Nat := 2 ^ 32

/-- `int_titan::integer`: a little-endian vector of base-2^32 digits and a
sign flag (`src/integer.h`, fields `digits` / `is_negative`). -/
structure integer where
  digits : List Nat
  is_negative : Bool
deriving DecidableEq, Repr

/-- The canonical zero constant: empty digit vector, non-negative. -/
def zero : integer := ⟨[], false⟩

/-- `integer::create(digits, is_negative)`. -/
def create (ds : List Nat) (neg : Bool) : integer := ⟨ds, neg⟩

/-- `integer::get_digit`: the digit at `index`, or 0 past the end. -/
def get_digit (x : integer) (index : Nat) : Nat := x.digits.getD index 0

/-- `integer::inverse_digit`: `max_digit + 1 - digit` truncated to 32 bits
(the source computes it in `uint64` and returns a `uint32`). -/
def inverse_digit (d : Nat) : Nat := (2 ^ 32 - d) % 2 ^ 32

/-- `integer::negate`: flip the sign flag, leave the digits alone. -/
def negate (x : integer) : integer := ⟨x.digits, !x.is_negative⟩

/-- `integer::absolute_value`: clear the sign flag. -/
def absolute_value (x : integer) : integer := ⟨x.digits, false⟩

/-- `integer::is_equal_to`: equal when both digit vectors are empty
(sign ignored), otherwise when sign flags and digit vectors agree. -/
def is_equal_to (x y : integer) : Bool :=
  if x.digits = [] ∧ y.digits = [] then true
  else decide (x.is_negative = y.is_negative ∧ x.digits = y.digits)

/-- The digit-comparison loop of `integer::is_less_than`: walk the index
list (highest first), deciding at the first position where the digits
differ, `false` when all positions agree. -/
def less_digits (x y : integer) : List Nat → Bool
  | [] => false
  | i :: rest =>
    if get_digit x i ≠ get_digit y i then decide (get_digit x i < get_digit y i)
    else less_digits x y rest

/-- The two final branches of `integer::is_less_than` (both operands
non-negative): shorter digit vector is smaller, otherwise compare digits
from the highest index down. -/
def less_mag (x y : integer) : Bool :=
  if x.digits.length ≠ y.digits.length then decide (x.digits.length < y.digits.length)
  else less_digits x y (List.range x.digits.length).reverse

/-- `integer::is_less_than`: both-zero check, sign dispatch, the
both-negative case `!is_less_than(negate y, negate x)`, then the
non-negative comparison.  The source's recursive call is unfolded one
step: its arguments are non-negative and (because `is_equal_to _ zero`
only looks at the digits, which `negate` preserves) its own both-zero
check repeats the outer one, so the call always reduces to `less_mag`. -/
def is_less_than (x y : integer) : Bool :=
  if is_equal_to x zero && is_equal_to y zero then false
  else if x.is_negative ≠ y.is_negative then x.is_negative
  else if x.is_negative && y.is_negative then !(less_mag (negate y) (negate x))
  else less_mag x y

/-- The unsigned carry loop of `integer::add`: `steps` iterations starting
at position `i`; each step computes `sum = digit(x,i) + digit(y,i) + carry`
in the wrapping 32-bit domain and sets the next carry with the source's
test `sum < digit(x,i)`; after the loop a final `1` is appended when the
carry is still set. -/
def add_kernel (x y : integer) : Nat → Nat → Nat → List Nat
  | _, 0, carry => if carry = 1 then [1] else []
  | i, steps + 1, carry =>
    let sum := (get_digit x i + get_digit y i + carry) % 2 ^ 32
    let carry2 := if sum < get_digit x i then 1 else 0
    sum :: add_kernel x y (i + 1) steps carry2

/-- The unsigned borrow loop of `integer::subtract`.  The source computes
`get_digit(x,i) - borrow` in `uint32`, so a borrow out of a zero digit
wraps to `0xFFFFFFFF`; the embedding reproduces the wrap with
`(digit + 2^32 - borrow) % 2^32`. -/
def subtract_kernel (x y : integer) : Nat → Nat → Nat → List Nat
  | _, 0, _ => []
  | i, steps + 1, borrow =>
    let t := (get_digit x i + 2 ^ 32 - borrow) % 2 ^ 32
    if t ≥ get_digit y i then (t - get_digit y i) % 2 ^ 32 :: subtract_kernel x y (i + 1) steps 0
    else inverse_digit (get_digit y i - t) :: subtract_kernel x y (i + 1) steps 1

/-- The trailing-zero strip at the end of `integer::subtract`
(`while (!result.empty() and result[size-1] == 0) take(size-1)`). -/
def strip_high_zeros (l : List Nat) : List Nat :=
  (l.reverse.dropWhile (· = 0)).reverse

mutual
/-- `integer::add` with fuel: the sign dispatch of the source
(`-x + -y = -(x+y)`, `-x + y = y - x`, `x + -y = x - y`) and otherwise the
unsigned kernel over `max` of the two lengths, with result sign `false`. -/
def addF : Nat → integer → integer → integer
  | 0, _, _ => zero
  | fuel + 1, x, y =>
    if x.is_negative && y.is_negative then negate (addF fuel (negate x) (negate y))
    else if x.is_negative && !y.is_negative then subF fuel y (negate x)
    else if !x.is_negative && y.is_negative then subF fuel x (negate y)
    else ⟨add_kernel x y 0 (max x.digits.length y.digits.length) 0, false⟩

/-- `integer::subtract` with fuel: the source's `x < y` swap (via
`is_less_than`), the sign dispatch, and otherwise the unsigned borrow
kernel followed by the trailing-zero strip, with result sign `false`. -/
def subF : Nat → integer → integer → integer
  | 0, _, _ => zero
  | fuel + 1, x, y =>
    if is_less_than x y then negate (subF fuel y x)
    else if x.is_negative && y.is_negative then negate (subF fuel (negate y) (negate x))
    else if x.is_negative && !y.is_negative then negate (addF fuel (negate x) y)
    else if !x.is_negative && y.is_negative then addF fuel x (negate y)
    else ⟨strip_high_zeros (subtract_kernel x y 0 (max x.digits.length y.digits.length) 0), false⟩
end

/-- `integer::add` (fuel 8 covers every terminating dispatch chain). -/
def add (x y : integer) : integer := addF 8 x y

/-- `integer::subtract` (fuel 8 covers every terminating dispatch chain). -/
def subtract (x y : integer) : integer := subF 8 x y

/-- `integer::shift_left`: prepend `amount` zero digits unless the value
is (structurally equal to) zero. -/
def shift_left (x : integer) (amount : Nat) : integer :=
  if is_equal_to x zero then x
  else ⟨List.replicate amount 0 ++ x.digits, x.is_negative⟩

/-- `integer::shift_right`: drop the first `amount` digits, keeping the
sign flag unchanged. -/
def shift_right (x : integer) (amount : Nat) : integer :=
  ⟨x.digits.drop amount, x.is_negative⟩

/-- `integer::multiply_digits`: the full 64-bit product of two digits. -/
def multiply_digits (x y : Nat) : Nat := x * y

/-- The loop of `integer::multiply_integer_by_digit`: at each digit the
64-bit product `digit * d + carry` is formed; its low 32 bits are appended
**unless** the result is still empty and the low word is zero (the
source's `if(!result.empty() or low > 0)` guard); the final carry is
appended when nonzero. -/
def mibd_loop (d : Nat) : List Nat → Nat → List Nat → List Nat
  | [], carry, result => if carry ≠ 0 then result ++ [carry] else result
  | a :: rest, carry, result =>
    let product := multiply_digits a d + carry
    let low := product % 2 ^ 32
    let result2 := if result ≠ [] ∨ low > 0 then result ++ [low] else result
    mibd_loop d rest (product / 2 ^ 32) result2

/-- `integer::multiply_integer_by_digit`: run the digit loop and keep the
sign flag of `x` on the result. -/
def multiply_integer_by_digit (x : integer) (d : Nat) : integer :=
  ⟨mibd_loop d x.digits 0 [], x.is_negative⟩

/-- The bit loop of `integer::small_divide`: for each bit from 31 down to
0, keep the bit set in the candidate digit when the candidate times `y`
does not exceed `x`. -/
def small_divide_bits (x y : integer) : Nat → List Nat → Nat
  | cur, [] => cur
  | cur, i :: rest =>
    if !(is_less_than x (multiply_integer_by_digit y (cur ||| 1 <<< i))) then
      small_divide_bits x y (cur ||| 1 <<< i) rest
    else small_divide_bits x y cur rest

/-- `integer::small_divide`: 0 when `x < y`, otherwise the 32-step binary
search over the bits of the quotient digit. -/
def small_divide (x y : integer) : Nat :=
  if is_less_than x y then 0
  else small_divide_bits x y 0 (List.range 32).reverse

/-- One iteration of the long-division loop of `integer::divide`: prepend
the next dividend digit to the carry, compute the quotient digit with
`small_divide`, prepend it to the quotient unless it is a leading zero,
and subtract `quotient_digit * y` from the carry. -/
def divide_step (y : integer) (rc : integer × integer) (d : Nat) : integer × integer :=
  let carry : integer := ⟨d :: rc.2.digits, rc.2.is_negative⟩
  let new_digit := small_divide carry y
  let result :=
    if rc.1.digits ≠ [] ∨ new_digit ≠ 0 then (⟨new_digit :: rc.1.digits, rc.1.is_negative⟩ : integer)
    else rc.1
  (result, subtract carry (multiply_integer_by_digit y new_digit))

/-- `integer::divide`: `none` models the `DivisionByZero` throw; an early
`(zero, x)` return when `is_less_than(x, y)`; otherwise the long-division
loop over the digits of `|x|` from most significant to least, with the
recorded result sign assigned to both quotient and remainder. -/
def divide (x y : integer) : Option (integer × integer) :=
  if is_equal_to y zero then none
  else if is_less_than x y then some (zero, x)
  else
    let sgn := xor x.is_negative y.is_negative
    let p := (absolute_value x).digits.reverse.foldl (divide_step (absolute_value y)) (zero, zero)
    some (⟨p.1.digits, sgn⟩, ⟨p.2.digits, sgn⟩)

/-- `integer::multiply`: swap so the shorter operand drives the outer
loop, record the xor of the signs, clear both signs, and accumulate
`shift_left(multiply_integer_by_digit(x, y_i), i)` with `add`. -/
def multiply (x y : integer) : integer :=
  if y.digits.length > x.digits.length then multiply y x
  else
    let sgn := xor x.is_negative y.is_negative
    let x2 := absolute_value x
    let acc := (List.range y.digits.length).foldl
      (fun acc i => add acc (shift_left (multiply_integer_by_digit x2 (get_digit y i)) i)) zero
    ⟨acc.digits, sgn⟩
termination_by y.digits.length

/-! ## Abstraction: the logical value of a representation (spec §3). -/

/-- The magnitude denoted by a little-endian digit vector:
`Σ dᵢ · B^i`. -/
def fromDigits : List Nat → Nat
  | [] => 0
  | d :: rest => d + 2 ^ 32 * fromDigits rest

/-- The signed logical value of an `integer`. -/
def toInt (x : integer) : Int :=
  if x.is_negative then -(fromDigits x.digits : Int) else (fromDigits x.digits : Int)

/-- Well-formed digit vector: every digit fits in 32 bits. -/
def wf (l : List Nat) : Prop := ∀ d ∈ l, d < 2 ^ 32

/-- Canonical representation (spec §3): digits fit in 32 bits, no trailing
zero at the high end, and the empty vector carries a `false` sign. -/
def canonical (x : integer) : Prop :=
  wf x.digits ∧ x.digits.getLast? ≠ some 0 ∧ (x.digits = [] → x.is_negative = false)

instance : DecidablePred canonical := by
  intro x
  unfold canonical wf
  infer_instance

/-! ## Hex text codec (`digits_from_hex_string` / `hex_string_from_integer`).
Strings are modelled as `List Char`. -/

/-- `integer::get_digit_character_value`: lower-case the character, then
map `0-9` to 0-9 and letters to 10-35. -/
def get_digit_character_value (c : Char) : Nat :=
  let d := c.toLower
  if '0' ≤ d ∧ d ≤ '9' then d.toNat - '0'.toNat
  else 10 + d.toNat - 'a'.toNat

/-- `integer::get_digit_character`: values below 10 map to `'0' + value`,
larger ones to `'A'/'a' + value - 10`. -/
def get_digit_character (value : Nat) (uppercase : Bool) : Char :=
  if value < 10 then Char.ofNat ('0'.toNat + value)
  else Char.ofNat ((if uppercase then 'A'.toNat else 'a'.toNat) + value - 10)

/-- The loop of `integer::digits_from_hex_string`, over the characters
from least significant (rightmost) to most significant: each character
contributes 4 bits at offset `4 * counter` of the current digit; every 8
characters the digit is appended and cleared; a final nonzero partial
digit is appended. -/
def dfh_loop : List Char → Nat → Nat → List Nat → List Nat
  | [], _, cur, acc => if cur ≠ 0 then acc ++ [cur] else acc
  | c :: rest, counter, cur, acc =>
    let cur2 := cur ||| (get_digit_character_value c <<< (4 * counter))
    if (counter + 1) % 8 = 0 then dfh_loop rest ((counter + 1) % 8) 0 (acc ++ [cur2])
    else dfh_loop rest ((counter + 1) % 8) cur2 acc

/-- `integer::digits_from_hex_string`: run the packing loop over the
reversed character list. -/
def digits_from_hex_string (str : List Char) : List Nat :=
  dfh_loop str.reverse 0 0 []

/-- `integer::create(std::string_view)`: strip an optional leading sign
character, remember whether it was `'-'`, and parse the rest as hex. -/
def create_str (str : List Char) : integer :=
  match str with
  | [] => create (digits_from_hex_string []) false
  | c :: rest =>
    if c = '-' ∨ c = '+' then create (digits_from_hex_string rest) (c = '-')
    else create (digits_from_hex_string (c :: rest)) false

/-- The printer state of `integer::hex_string_from_integer`: the nibble
being accumulated, the bit counter, the seen-a-nonzero-character flag and
the output accumulated so far. -/
structure HexPrintSt where
  current_bits : Nat
  counter : Nat
  has_char : Bool
  out : List Char
deriving DecidableEq, Repr

/-- One step of the printer's inner bit loop: OR the bit into position
`3 - counter % 4` of the nibble; every 4 bits emit a character unless it
would be a leading zero. -/
def hex_print_bit (uppercase : Bool) (d : Nat) (s : HexPrintSt) (bit : Nat) : HexPrintSt :=
  let cb := s.current_bits ||| ((if Nat.testBit d bit then 1 else 0) <<< (4 - 1 - s.counter % 4))
  if (s.counter + 1) % 4 = 0 then
    if s.has_char = true ∨ cb ≠ 0 then
      ⟨0, (s.counter + 1) % 4, true, s.out ++ [get_digit_character cb uppercase]⟩
    else ⟨cb, (s.counter + 1) % 4, s.has_char, s.out⟩
  else ⟨cb, (s.counter + 1) % 4, s.has_char, s.out⟩

/-- The printer's per-digit loop: bits 31 down to 0. -/
def hex_print_digit (uppercase : Bool) (s : HexPrintSt) (d : Nat) : HexPrintSt :=
  (List.range 32).reverse.foldl (hex_print_bit uppercase d) s

/-- `integer::hex_string_from_integer`: an optional `'-'`, then the digits
from most significant to least significant through the bit loop. -/
def hex_string_from_integer (x : integer) (uppercase : Bool) : List Char :=
  (x.digits.reverse.foldl (hex_print_digit uppercase)
    ⟨0, 0, false, if x.is_negative then ['-'] else []⟩).out

/-- `integer::to_string` with its default arguments (hex, uppercase). -/
def to_string (x : integer) : List Char := hex_string_from_integer x true

/-! ## Proof-side helpers for the codec round trip. -/

/-- The 8 nibbles of a digit, most significant first. -/
def nibsBE (d : Nat) : List Nat :=
  [d / 2 ^ 28 % 16, d / 2 ^ 24 % 16, d / 2 ^ 20 % 16, d / 2 ^ 16 % 16,
   d / 2 ^ 12 % 16, d / 2 ^ 8 % 16, d / 2 ^ 4 % 16, d % 16]

/-- The 8 nibbles of a digit, least significant first. -/
def nibsLE (d : Nat) : List Nat :=
  [d % 16, d / 2 ^ 4 % 16, d / 2 ^ 8 % 16, d / 2 ^ 12 % 16,
   d / 2 ^ 16 % 16, d / 2 ^ 20 % 16, d / 2 ^ 24 % 16, d / 2 ^ 28 % 16]

/-- Value of a least-significant-first nibble list. -/
def packLE : List Nat → Nat
  | [] => 0
  | n :: rest => n + 16 * packLE rest

/-- Reference form of the printer's emission discipline: emit each nibble
as a character, suppressing leading zeros until the first nonzero
nibble. -/
def emitNibs (uppercase : Bool) : Bool × List Char → List Nat → Bool × List Char
  | s, [] => s
  | (has, out), n :: rest =>
    if has = true ∨ n ≠ 0 then
      emitNibs uppercase (true, out ++ [get_digit_character n uppercase]) rest
    else emitNibs uppercase (has, out) rest

/-- The flattened least-significant-first nibble stream of a little-endian
digit list. -/
def nibStream : List Nat → List Nat
  | [] => []
  | d :: rest => nibsLE d ++ nibStream rest

/-- The flattened most-significant-first nibble stream of a digit list
given most significant digit first. -/
def nibStreamBE : List Nat → List Nat
  | [] => []
  | d :: rest => nibsBE d ++ nibStreamBE rest

/-- The bit indices the printer visits, grouped per nibble: for each base
`b` the four indices `b+3, b+2, b+1, b`. -/
def bitIdx : List Nat → List Nat
  | [] => []
  | b :: rest => [b + 3, b + 2, b + 1, b] ++ bitIdx rest

/-! ## Helper lemmas. -/

/-- Bitwise OR acts as addition when the left operand lies below the
shift. -/
theorem or_shift_add (a b k : Nat) (h : a < 2 ^ k) : a ||| b <<< k = a + b * 2 ^ k := by
  rw [Nat.shiftLeft_eq]
  apply Nat.eq_of_testBit_eq
  intro i
  rw [Nat.testBit_or]
  by_cases hik : k ≤ i
  · have ha : a.testBit i = false :=
      Nat.testBit_lt_two_pow (lt_of_lt_of_le h (Nat.pow_le_pow_right (by norm_num) hik))
    have e1 : (a + b * 2 ^ k) / 2 ^ i = b / 2 ^ (i - k) := by
      have e2 : (2 : Nat) ^ i = 2 ^ k * 2 ^ (i - k) := by
        rw [← pow_add]
        congr 1
        omega
      rw [e2, ← Nat.div_div_eq_div_mul, mul_comm b (2 ^ k),
        Nat.add_mul_div_left _ _ (Nat.pos_pow_of_pos k (by norm_num)),
        Nat.div_eq_of_lt h, Nat.zero_add]
    have e3 : (b * 2 ^ k).testBit i = b.testBit (i - k) := by
      rw [Nat.testBit_to_div_mod, Nat.testBit_to_div_mod]
      have e4 : b * 2 ^ k / 2 ^ i = b / 2 ^ (i - k) := by
        have e2 : (2 : Nat) ^ i = 2 ^ k * 2 ^ (i - k) := by
          rw [← pow_add]
          congr 1
          omega
        rw [e2, ← Nat.div_div_eq_div_mul, mul_comm b (2 ^ k),
          Nat.mul_div_cancel_left _ (Nat.pos_pow_of_pos k (by norm_num))]
      rw [e4]
    rw [ha, e3, Bool.false_or, Nat.testBit_to_div_mod, Nat.testBit_to_div_mod, e1]
  · have e2 : (2 : Nat) ^ k = 2 ^ i * (2 ^ (k - i - 1) * 2) := by
      rw [← pow_succ, ← pow_add]
      congr 1
      omega
    have hb : (b * 2 ^ k).testBit i = false := by
      rw [Nat.testBit_to_div_mod]
      have e5 : b * 2 ^ k / 2 ^ i = b * (2 ^ (k - i - 1) * 2) := by
        rw [e2, mul_comm (2 ^ i) (2 ^ (k - i - 1) * 2), ← mul_assoc,
          Nat.mul_div_cancel _ (Nat.pos_pow_of_pos i (by norm_num))]
      rw [e5, ← mul_assoc, Nat.mul_mod_left]
      rfl
    have e6 : (a + b * 2 ^ k) / 2 ^ i = a / 2 ^ i + b * 2 ^ (k - i - 1) * 2 := by
      have e7 : a + b * 2 ^ k = a + 2 ^ i * (b * 2 ^ (k - i - 1) * 2) := by
        rw [e2]
        ring
      rw [e7, Nat.add_mul_div_left _ _ (Nat.pos_pow_of_pos i (by norm_num))]
    have e8 : (a + b * 2 ^ k) / 2 ^ i % 2 = a / 2 ^ i % 2 := by
      rw [e6]
      exact Nat.add_mul_mod_self_right _ _ _
    rw [hb, Bool.or_false, Nat.testBit_to_div_mod, Nat.testBit_to_div_mod, e8]

/-- Reading back a printed hex character recovers its value. -/
theorem value_of_character :
    ∀ n, n < 16 → get_digit_character_value (get_digit_character n true) = n := by decide

/-- Printed hex characters are never sign characters. -/
theorem character_not_sign :
    ∀ n, n < 16 → ¬(get_digit_character n true = '-' ∨ get_digit_character n true = '+') := by
  decide

/-- Packing the least-significant-first nibbles of a 32-bit digit recovers
the digit. -/
theorem packLE_nibsLE (d : Nat) (hd : d < 2 ^ 32) : packLE (nibsLE d) = d := by
  simp only [nibsLE, packLE]
  norm_num
  omega

/-- Every entry of a nibble list is below 16. -/
theorem nibsLE_lt (d : Nat) : ∀ n ∈ nibsLE d, n < 16 := by
  intro n hn
  simp only [nibsLE, List.mem_cons, List.not_mem_nil, or_false] at hn
  rcases hn with h | h | h | h | h | h | h | h <;> subst h <;> omega

/-- Every entry of a most-significant-first nibble list is below 16. -/
theorem nibsBE_lt (d : Nat) : ∀ n ∈ nibsBE d, n < 16 := by
  intro n hn
  simp only [nibsBE, List.mem_cons, List.not_mem_nil, or_false] at hn
  rcases hn with h | h | h | h | h | h | h | h <;> subst h <;> omega

/-- A packed nibble list is bounded by `16 ^ length`. -/
theorem packLE_lt (l : List Nat) (hl : ∀ n ∈ l, n < 16) : packLE l < 16 ^ l.length := by
  induction l with
  | nil => simp [packLE]
  | cons n rest ih =>
    have h1 : n < 16 := hl n (by simp)
    have h2 : packLE rest < 16 ^ rest.length := ih (fun m hm => hl m (by simp [hm]))
    simp only [packLE, List.length_cons, pow_succ]
    have h3 : 16 * (packLE rest + 1) ≤ 16 * 16 ^ rest.length := by
      exact Nat.mul_le_mul_left 16 h2
    omega

/-- A list of zero nibbles packs to zero. -/
theorem packLE_zeros (z : List Nat) (hz : ∀ n ∈ z, n = 0) : packLE z = 0 := by
  induction z with
  | nil => rfl
  | cons n rest ih =>
    have h1 : n = 0 := hz n (by simp)
    have h2 := ih (fun m hm => hz m (by simp [hm]))
    simp [packLE, h1, h2]

/-- Trailing zero nibbles do not change the packed value. -/
theorem packLE_append_zeros (l z : List Nat) (hz : ∀ n ∈ z, n = 0) :
    packLE (l ++ z) = packLE l := by
  induction l with
  | nil => simpa [packLE] using packLE_zeros z hz
  | cons n rest ih => simp [packLE, ih]

/-- One non-pushing step of the hex parse loop. -/
theorem dfh_step (n : Nat) (cs : List Char) (j cur : Nat) (acc : List Nat)
    (hn : n < 16) (hcur : cur < 16 ^ j) (hj : j < 7) :
    dfh_loop (get_digit_character n true :: cs) j cur acc =
      dfh_loop cs (j + 1) (cur + n * 16 ^ j) acc := by
  have hpow : (16 : Nat) ^ j = 2 ^ (4 * j) := by
    rw [pow_mul]
    norm_num
  simp only [dfh_loop, value_of_character n hn]
  rw [if_neg (by omega), Nat.mod_eq_of_lt (by omega),
    or_shift_add cur n (4 * j) (by rw [← hpow]; exact hcur), ← hpow]

/-- The pushing (eighth) step of the hex parse loop. -/
theorem dfh_step_push (n : Nat) (cs : List Char) (cur : Nat) (acc : List Nat)
    (hn : n < 16) :
    dfh_loop (get_digit_character n true :: cs) 7 cur acc =
      dfh_loop cs 0 0 (acc ++ [cur ||| n <<< 28]) := by
  simp only [dfh_loop, value_of_character n hn]
  rw [if_pos (by norm_num)]

/-- A full group of eight characters pushes one packed digit. -/
theorem dfh_group (l : List Nat) (cs : List Char) (acc : List Nat)
    (hlen : l.length = 8) (hl : ∀ n ∈ l, n < 16) :
    dfh_loop (l.map (get_digit_character · true) ++ cs) 0 0 acc =
      dfh_loop cs 0 0 (acc ++ [packLE l]) := by
  match l, hlen with
  | [n0, n1, n2, n3, n4, n5, n6, n7], _ =>
    have b0 : n0 < 16 := hl _ (by simp)
    have b1 : n1 < 16 := hl _ (by simp)
    have b2 : n2 < 16 := hl _ (by simp)
    have b3 : n3 < 16 := hl _ (by simp)
    have b4 : n4 < 16 := hl _ (by simp)
    have b5 : n5 < 16 := hl _ (by simp)
    have b6 : n6 < 16 := hl _ (by simp)
    have b7 : n7 < 16 := hl _ (by simp)
    simp only [List.map_cons, List.map_nil, List.cons_append, List.nil_append]
    rw [dfh_step n0 _ 0 0 acc b0 (by norm_num) (by norm_num)]
    rw [dfh_step n1 _ 1 _ acc b1 (by norm_num; omega) (by norm_num)]
    rw [dfh_step n2 _ 2 _ acc b2 (by norm_num; omega) (by norm_num)]
    rw [dfh_step n3 _ 3 _ acc b3 (by norm_num; omega) (by norm_num)]
    rw [dfh_step n4 _ 4 _ acc b4 (by norm_num; omega) (by norm_num)]
    rw [dfh_step n5 _ 5 _ acc b5 (by norm_num; omega) (by norm_num)]
    rw [dfh_step n6 _ 6 _ acc b6 (by norm_num; omega) (by norm_num)]
    rw [dfh_step_push n7 _ _ acc b7]
    congr 2
    rw [or_shift_add _ n7 28 (by norm_num; omega)]
    simp only [packLE]
    norm_num
    ring

/-- A short final run of characters (fewer than eight remaining in the
current digit) ends the loop, pushing the accumulated digit iff it is
nonzero. -/
theorem dfh_tail (l : List Nat) : ∀ (j cur : Nat) (acc : List Nat),
    j + l.length < 8 → (∀ n ∈ l, n < 16) → cur < 16 ^ j →
    dfh_loop (l.map (get_digit_character · true)) j cur acc =
      (if cur + 16 ^ j * packLE l ≠ 0 then acc ++ [cur + 16 ^ j * packLE l] else acc) := by
  induction l with
  | nil =>
    intro j cur acc _ _ _
    simp [dfh_loop, packLE]
  | cons n rest ih =>
    intro j cur acc hlen hl hcur
    have hn : n < 16 := hl n (by simp)
    rw [List.map_cons,
      dfh_step n _ j cur acc hn hcur (by simp at hlen; omega)]
    rw [ih (j + 1) _ acc (by simp at hlen ⊢; omega) (fun m hm => hl m (by simp [hm]))
      (by
        have h15 : n * 16 ^ j ≤ 15 * 16 ^ j := Nat.mul_le_mul_right _ (by omega)
        have hp : (16 : Nat) ^ (j + 1) = 16 * 16 ^ j := by rw [pow_succ]; ring
        omega)]
    have e : cur + n * 16 ^ j + 16 ^ (j + 1) * packLE rest =
        cur + 16 ^ j * packLE (n :: rest) := by
      simp only [packLE, pow_succ]
      ring
    rw [e]

/-- Parsing the character stream of a digit list pushes exactly those
digits (little-endian) onto the accumulator. -/
theorem dfh_nibStream (ds : List Nat) : ∀ (tail : List Char) (acc : List Nat),
    (∀ d ∈ ds, d < 2 ^ 32) →
    dfh_loop ((nibStream ds).map (get_digit_character · true) ++ tail) 0 0 acc =
      dfh_loop tail 0 0 (acc ++ ds) := by
  induction ds with
  | nil => intro tail acc _; simp [nibStream]
  | cons d rest ih =>
    intro tail acc hwf
    have hd : d < 2 ^ 32 := hwf d (by simp)
    rw [show nibStream (d :: rest) = nibsLE d ++ nibStream rest from rfl,
      List.map_append, List.append_assoc,
      dfh_group (nibsLE d) _ acc (by simp [nibsLE]) (nibsLE_lt d),
      packLE_nibsLE d hd,
      ih _ (acc ++ [d]) (fun m hm => hwf m (by simp [hm]))]
    simp

/-- Emission of a nibble followed by a list equals consing it. -/
theorem emitNibs_cons (u : Bool) (s : Bool × List Char) (n : Nat) (l : List Nat) :
    emitNibs u s (n :: l) = emitNibs u (emitNibs u s [n]) l := by
  obtain ⟨has, out⟩ := s
  by_cases h : has = true ∨ n ≠ 0 <;> simp [emitNibs, h]

/-- `emitNibs` splits over list append. -/
theorem emitNibs_append (u : Bool) (l1 : List Nat) : ∀ (s : Bool × List Char) (l2 : List Nat),
    emitNibs u s (l1 ++ l2) = emitNibs u (emitNibs u s l1) l2 := by
  induction l1 with
  | nil => intro s l2; rfl
  | cons n rest ih =>
    intro s l2
    obtain ⟨has, out⟩ := s
    by_cases h : has = true ∨ n ≠ 0 <;> simp [emitNibs, h, ih]

/-- Once a character has been emitted, every later nibble is emitted. -/
theorem emitNibs_true (u : Bool) (l : List Nat) : ∀ (out : List Char),
    emitNibs u (true, out) l = (true, out ++ l.map (get_digit_character · u)) := by
  induction l with
  | nil => intro out; simp [emitNibs]
  | cons n rest ih => intro out; simp [emitNibs, ih]

/-- Before any character has been emitted, leading zero nibbles are
suppressed. -/
theorem emitNibs_skip (u : Bool) (l : List Nat) : ∀ (out : List Char),
    (emitNibs u (false, out) l).2 =
      out ++ (l.dropWhile (· = 0)).map (get_digit_character · u) := by
  induction l with
  | nil => intro out; simp [emitNibs]
  | cons n rest ih =>
    intro out
    by_cases h : n = 0
    · subst h
      simpa [emitNibs, List.dropWhile_cons] using ih out
    · simp [emitNibs, List.dropWhile_cons, h, emitNibs_true]

/-- Reversing the most-significant-first nibbles of a digit gives the
least-significant-first nibbles. -/
theorem nibsBE_reverse (d : Nat) : (nibsBE d).reverse = nibsLE d := by rfl

/-- `nibStream` splits over list append. -/
theorem nibStream_append (l1 l2 : List Nat) :
    nibStream (l1 ++ l2) = nibStream l1 ++ nibStream l2 := by
  induction l1 with
  | nil => rfl
  | cons d rest ih => simp [nibStream, ih]

/-- Reversing the most-significant-first stream of a reversed digit list
yields the least-significant-first stream. -/
theorem nibStreamBE_reverse (l : List Nat) :
    (nibStreamBE l).reverse = nibStream l.reverse := by
  induction l with
  | nil => rfl
  | cons d rest ih =>
    rw [show nibStreamBE (d :: rest) = nibsBE d ++ nibStreamBE rest from rfl,
      List.reverse_append, ih, List.reverse_cons, nibStream_append]
    simp [nibStream, nibsBE_reverse]

/-- The printer's bit step at counter 0. -/
theorem print_bit_c0 (u : Bool) (d : Nat) (has : Bool) (out : List Char) (cb i : Nat) :
    hex_print_bit u d ⟨cb, 0, has, out⟩ i =
      ⟨cb ||| (if Nat.testBit d i then 1 else 0) <<< 3, 1, has, out⟩ := by
  norm_num [hex_print_bit]

/-- The printer's bit step at counter 1. -/
theorem print_bit_c1 (u : Bool) (d : Nat) (has : Bool) (out : List Char) (cb i : Nat) :
    hex_print_bit u d ⟨cb, 1, has, out⟩ i =
      ⟨cb ||| (if Nat.testBit d i then 1 else 0) <<< 2, 2, has, out⟩ := by
  norm_num [hex_print_bit]

/-- The printer's bit step at counter 2. -/
theorem print_bit_c2 (u : Bool) (d : Nat) (has : Bool) (out : List Char) (cb i : Nat) :
    hex_print_bit u d ⟨cb, 2, has, out⟩ i =
      ⟨cb ||| (if Nat.testBit d i then 1 else 0) <<< 1, 3, has, out⟩ := by
  norm_num [hex_print_bit]

/-- The printer's bit step at counter 3: the nibble is complete and is
emitted unless it would be a leading zero. -/
theorem print_bit_c3 (u : Bool) (d : Nat) (has : Bool) (out : List Char) (cb i : Nat) :
    hex_print_bit u d ⟨cb, 3, has, out⟩ i =
      if has = true ∨ (cb ||| (if Nat.testBit d i then 1 else 0)) ≠ 0 then
        ⟨0, 0, true, out ++ [get_digit_character (cb ||| (if Nat.testBit d i then 1 else 0)) u]⟩
      else ⟨cb ||| (if Nat.testBit d i then 1 else 0), 0, has, out⟩ := by
  norm_num [hex_print_bit, Nat.shiftLeft_zero]

/-- A bit test expressed through division and parity. -/
theorem bit_as_div_mod (d k : Nat) : (if Nat.testBit d k then 1 else 0) = d / 2 ^ k % 2 := by
  rw [Nat.testBit_to_div_mod]
  rcases Nat.mod_two_eq_zero_or_one (d / 2 ^ k) with h | h <;> simp [h]

/-- Four OR-ed bit values below 2 assemble the corresponding nibble. -/
theorem or_nibble_bits :
    ∀ e3, e3 ≤ 1 → ∀ e2, e2 ≤ 1 → ∀ e1, e1 ≤ 1 → ∀ e0, e0 ≤ 1 →
      e3 <<< 3 ||| e2 <<< 2 ||| e1 <<< 1 ||| e0 = 8 * e3 + 4 * e2 + 2 * e1 + e0 := by
  decide

/-- The four parities of `d / 2^(b+3) … d / 2^b` assemble `d / 2^b % 16`. -/
theorem nibble_div_decomp (d b : Nat) :
    8 * (d / 2 ^ (b + 3) % 2) + 4 * (d / 2 ^ (b + 2) % 2) + 2 * (d / 2 ^ (b + 1) % 2) +
      d / 2 ^ b % 2 = d / 2 ^ b % 16 := by
  have h3 : d / 2 ^ (b + 3) = d / 2 ^ b / 8 := by
    rw [pow_add, ← Nat.div_div_eq_div_mul]
    norm_num
  have h2 : d / 2 ^ (b + 2) = d / 2 ^ b / 4 := by
    rw [pow_add, ← Nat.div_div_eq_div_mul]
    norm_num
  have h1 : d / 2 ^ (b + 1) = d / 2 ^ b / 2 := by
    rw [pow_add, ← Nat.div_div_eq_div_mul]
    norm_num
  rw [h3, h2, h1]
  omega

/-- Processing the four bits of one nibble from a fresh state acts exactly
like `emitNibs` on that single nibble. -/
theorem print_bits_group (u : Bool) (d : Nat) (has : Bool) (out : List Char) (b : Nat) :
    [b + 3, b + 2, b + 1, b].foldl (hex_print_bit u d) ⟨0, 0, has, out⟩ =
      ⟨0, 0, (emitNibs u (has, out) [d / 2 ^ b % 16]).1,
        (emitNibs u (has, out) [d / 2 ^ b % 16]).2⟩ := by
  have key : ((((0 : Nat) ||| (if Nat.testBit d (b + 3) then 1 else 0) <<< 3) |||
      (if Nat.testBit d (b + 2) then 1 else 0) <<< 2) |||
      (if Nat.testBit d (b + 1) then 1 else 0) <<< 1) |||
      (if Nat.testBit d b then 1 else 0) = d / 2 ^ b % 16 := by
    rw [Nat.zero_or, bit_as_div_mod, bit_as_div_mod, bit_as_div_mod, bit_as_div_mod,
      or_nibble_bits _ (by omega) _ (by omega) _ (by omega) _ (by omega),
      nibble_div_decomp]
  rw [List.foldl_cons, print_bit_c0, List.foldl_cons, print_bit_c1,
    List.foldl_cons, print_bit_c2, List.foldl_cons, print_bit_c3, List.foldl_nil, key]
  by_cases hc : has = true ∨ d / 2 ^ b % 16 ≠ 0
  · rw [if_pos hc]
    simp only [emitNibs, if_pos hc]
  · rw [if_neg hc]
    simp only [emitNibs, if_neg hc]
    push_neg at hc
    rw [hc.2]

/-- Processing any list of nibble groups acts like `emitNibs` on the
corresponding nibble values. -/
theorem print_bits_groups (u : Bool) (d : Nat) (bs : List Nat) :
    ∀ (has : Bool) (out : List Char),
      (bitIdx bs).foldl (hex_print_bit u d) ⟨0, 0, has, out⟩ =
        ⟨0, 0, (emitNibs u (has, out) (bs.map fun b => d / 2 ^ b % 16)).1,
          (emitNibs u (has, out) (bs.map fun b => d / 2 ^ b % 16)).2⟩ := by
  induction bs with
  | nil => intro has out; rfl
  | cons b rest ih =>
    intro has out
    rw [show bitIdx (b :: rest) = [b + 3, b + 2, b + 1, b] ++ bitIdx rest from rfl,
      List.foldl_append, print_bits_group]
    by_cases h : has = true ∨ d / 2 ^ b % 16 ≠ 0
    · have hp : emitNibs u (has, out) [d / 2 ^ b % 16] =
          (true, out ++ [get_digit_character (d / 2 ^ b % 16) u]) := by
        simp [emitNibs, h]
      rw [hp, ih]
      simp [emitNibs, h]
    · have hp : emitNibs u (has, out) [d / 2 ^ b % 16] = (has, out) := by
        simp [emitNibs, h]
      rw [hp, ih]
      simp only [List.map_cons]
      have h2 : ¬(has = true ∨ ¬d / 2 ^ b % 16 = 0) := h
      simp [emitNibs, h2]

/-- One digit of the printer emits its eight nibbles. -/
theorem print_digit_emit (u : Bool) (d : Nat) (has : Bool) (out : List Char) :
    hex_print_digit u ⟨0, 0, has, out⟩ d =
      ⟨0, 0, (emitNibs u (has, out) (nibsBE d)).1, (emitNibs u (has, out) (nibsBE d)).2⟩ := by
  have hidx : (List.range 32).reverse = bitIdx [28, 24, 20, 16, 12, 8, 4, 0] := by decide
  unfold hex_print_digit
  rw [hidx, print_bits_groups]
  norm_num [nibsBE]

/-- The digit loop of the printer emits the full nibble stream. -/
theorem print_digits_emit (u : Bool) (ds : List Nat) :
    ∀ (has : Bool) (out : List Char),
      ds.foldl (hex_print_digit u) ⟨0, 0, has, out⟩ =
        ⟨0, 0, (emitNibs u (has, out) (nibStreamBE ds)).1,
          (emitNibs u (has, out) (nibStreamBE ds)).2⟩ := by
  induction ds with
  | nil => intro has out; rfl
  | cons d rest ih =>
    intro has out
    rw [List.foldl_cons, print_digit_emit, ih,
      show nibStreamBE (d :: rest) = nibsBE d ++ nibStreamBE rest from rfl,
      emitNibs_append]

/-- The printed text is the sign followed by the leading-zero-suppressed
nibble stream. -/
theorem hex_string_shape (x : integer) (u : Bool) :
    hex_string_from_integer x u =
      (if x.is_negative then ['-'] else []) ++
        ((nibStreamBE x.digits.reverse).dropWhile (· = 0)).map (get_digit_character · u) := by
  unfold hex_string_from_integer
  rw [print_digits_emit]
  simpa using emitNibs_skip u (nibStreamBE x.digits.reverse) _

/-- `is_equal_to x zero` holds exactly when the digit vector is empty. -/
theorem is_equal_to_zero_iff (y : integer) : is_equal_to y zero = true ↔ y.digits = [] := by
  unfold is_equal_to zero
  by_cases hd : y.digits = [] <;> simp [hd]

/-- A digit vector whose last entry is nonzero denotes a nonzero
magnitude. -/
theorem fromDigits_ne_zero (l : List Nat) (hne : l ≠ []) (hl : l.getLast? ≠ some 0) :
    fromDigits l ≠ 0 := by
  induction l with
  | nil => exact absurd rfl hne
  | cons d rest ih =>
    cases rest with
    | nil =>
      simp [List.getLast?] at hl
      simpa [fromDigits] using hl
    | cons e rest2 =>
      have h2 : fromDigits (e :: rest2) ≠ 0 := by
        apply ih (by simp)
        simpa [List.getLast?_cons_cons] using hl
      have h3 : 0 < fromDigits (e :: rest2) := Nat.pos_of_ne_zero h2
      show d + 2 ^ 32 * fromDigits (e :: rest2) ≠ 0
      omega

/-- The signed value is zero exactly when the magnitude is. -/
theorem toInt_eq_zero_iff (y : integer) : toInt y = 0 ↔ fromDigits y.digits = 0 := by
  unfold toInt
  split <;> simp

/-! ## Claim theorems. -/

/-- C1: the division law `x = q·y + r ∧ |r| < |y|` fails on the code.
`divide(-3, 2)` early-returns `(0, -3)` because the guard tests the signed
order `is_less_than(x, y)` instead of comparing magnitudes, so the
remainder's magnitude 3 is not smaller than the divisor's magnitude 2. -/
theorem divide_law_violated_at_neg3_2 :
    divide ⟨[3], true⟩ ⟨[2], false⟩ = some (zero, ⟨[3], true⟩) ∧
    toInt ⟨[3], true⟩ = toInt zero * toInt ⟨[2], false⟩ + toInt ⟨[3], true⟩ ∧
    ¬((toInt ⟨[3], true⟩).natAbs < (toInt ⟨[2], false⟩).natAbs) := by
  decide

/-- C2: the unsigned add kernel is wrong: its carry test `sum < digit(x,i)`
misses the overflow that occurs when `digit(y,i) = B - 1` and the incoming
carry is 1 (then `sum = digit(x,i)`), so `add(1, B^2 - 1)` returns the
digit vector `[0, 0]` — the value 0 — instead of `B^2`. -/
theorem add_kernel_drops_carry :
    add ⟨[1], false⟩ ⟨[4294967295, 4294967295], false⟩ = ⟨[0, 0], false⟩ ∧
    toInt (add ⟨[1], false⟩ ⟨[4294967295, 4294967295], false⟩) ≠
      toInt ⟨[1], false⟩ + toInt ⟨[4294967295, 4294967295], false⟩ := by
  decide

/-- C3: the unsigned subtract kernel is wrong: `digit(x,i) - borrow` is
computed in the wrapping 32-bit domain, not in extended precision, so a
borrow out of a zero digit wraps to `B - 1`, the `≥` test spuriously
succeeds and the borrow is dropped: `subtract(B^2, 1)` returns
`2·B^2 - 1` instead of `B^2 - 1`. -/
theorem subtract_kernel_loses_borrow :
    subtract ⟨[0, 0, 1], false⟩ ⟨[1], false⟩ = ⟨[4294967295, 4294967295, 1], false⟩ ∧
    toInt (subtract ⟨[0, 0, 1], false⟩ ⟨[1], false⟩) ≠
      toInt ⟨[0, 0, 1], false⟩ - toInt ⟨[1], false⟩ := by
  decide

/-- C4: for two negatives the code returns `!is_less_than(|y|, |x|)` — the
negation of what the claim states: at `x = -2, y = -1` the code yields
`false` while `is_less_than(|y|, |x|)` is `true` (and indeed `-2 < -1`). -/
theorem is_less_than_negated_on_negatives :
    is_less_than ⟨[2], true⟩ ⟨[1], true⟩ = false ∧
    is_less_than (absolute_value ⟨[1], true⟩) (absolute_value ⟨[2], true⟩) = true := by
  decide

/-- C5: addition is not commutative in the code: `add(1, B^2 - 1)` hits the
broken carry test and returns the digit vector `[0, 0]`, while the swapped
call returns `[0, 0, 1] = B^2`; `is_equal_to` distinguishes them. -/
theorem add_not_commutative :
    is_equal_to (add ⟨[1], false⟩ ⟨[4294967295, 4294967295], false⟩)
      (add ⟨[4294967295, 4294967295], false⟩ ⟨[1], false⟩) = false ∧
    add ⟨[4294967295, 4294967295], false⟩ ⟨[1], false⟩ = ⟨[0, 0, 1], false⟩ := by
  decide

/-- C6: `multiply_integer_by_digit` does not always append the low 32 bits
of the product: while the output is still empty a zero low word is skipped
(`if(!result.empty() or low > 0)`), silently dividing the result by `B`
per skipped digit: `multiply_integer_by_digit(B, 1)` returns magnitude 1
instead of `B`. -/
theorem multiply_by_digit_drops_low_zero :
    multiply_integer_by_digit ⟨[0, 1], false⟩ 1 = ⟨[1], false⟩ ∧
    fromDigits (multiply_integer_by_digit ⟨[0, 1], false⟩ 1).digits ≠
      fromDigits [0, 1] * 1 := by
  decide

/-- C7: produced values are not all canonical: `shift_right` keeps the sign
flag of a negative input even when every digit is dropped, and `negate`
applied to `zero` yields the empty digit vector with `negative = true`;
the spec's required sign normalization is absent from the code. -/
theorem shift_right_keeps_negative_zero :
    (shift_right ⟨[1], true⟩ 1).digits = [] ∧
    (shift_right ⟨[1], true⟩ 1).is_negative = true ∧
    (negate zero).digits = [] ∧ (negate zero).is_negative = true := by
  decide

/-- Dropping a prefix stops inside the left part of an append when the
left part contains an element the predicate rejects. -/
theorem dropWhile_append_left (p : Nat → Bool) (l1 : List Nat) :
    ∀ l2 : List Nat, (¬ ∀ a ∈ l1, p a = true) →
      (l1 ++ l2).dropWhile p = l1.dropWhile p ++ l2 := by
  induction l1 with
  | nil => intro l2 h; exact absurd (by simp) h
  | cons b rest ih =>
    intro l2 h
    by_cases hb : p b = true
    · have h2 : ¬ ∀ a ∈ rest, p a = true := by
        intro hc
        apply h
        intro a ha
        rcases List.mem_cons.mp ha with h3 | h3
        · rw [h3]; exact hb
        · exact hc a h3
      simp only [List.cons_append, List.dropWhile_cons, hb, if_true]
      exact ih l2 h2
    · simp [List.dropWhile_cons, hb]

/-- The nibbles of a nonzero 32-bit digit are not all zero. -/
theorem nibsBE_not_all_zero (d : Nat) (hd : d < 2 ^ 32) (hne : d ≠ 0) :
    ¬ ∀ n ∈ nibsBE d, (fun m => decide (m = 0)) n = true := by
  intro h
  apply hne
  simp only [decide_eq_true_eq] at h
  have h0 := h (d / 2 ^ 28 % 16) (by simp [nibsBE])
  have h1 := h (d / 2 ^ 24 % 16) (by simp [nibsBE])
  have h2 := h (d / 2 ^ 20 % 16) (by simp [nibsBE])
  have h3 := h (d / 2 ^ 16 % 16) (by simp [nibsBE])
  have h4 := h (d / 2 ^ 12 % 16) (by simp [nibsBE])
  have h5 := h (d / 2 ^ 8 % 16) (by simp [nibsBE])
  have h6 := h (d / 2 ^ 4 % 16) (by simp [nibsBE])
  have h7 := h (d % 16) (by simp [nibsBE])
  omega

/-- The suppressed tail of the top digit's nibbles still packs to the top
digit. -/
theorem packLE_dropWhile_nibsBE (d : Nat) (hd : d < 2 ^ 32) :
    packLE ((nibsBE d).dropWhile (fun m => decide (m = 0))).reverse = d := by
  have hsplit := List.takeWhile_append_dropWhile (p := fun m => decide (m = 0)) (l := nibsBE d)
  have hz : ∀ n ∈ ((nibsBE d).takeWhile fun m => decide (m = 0)).reverse, n = 0 := by
    intro n hn
    rw [List.mem_reverse] at hn
    simpa using List.mem_takeWhile_imp hn
  calc packLE ((nibsBE d).dropWhile (fun m => decide (m = 0))).reverse
      = packLE (((nibsBE d).dropWhile (fun m => decide (m = 0))).reverse ++
          ((nibsBE d).takeWhile fun m => decide (m = 0)).reverse) :=
        (packLE_append_zeros _ _ hz).symm
    _ = packLE (nibsBE d).reverse := by rw [← List.reverse_append, hsplit]
    _ = d := by rw [nibsBE_reverse]; exact packLE_nibsLE d hd

/-- C8: parsing the uppercase hex text printed for a canonical nonzero
value yields a value `is_equal_to`-equal to it, and zero prints as the
empty string. -/
theorem hex_round_trip (x : integer) (hx : canonical x) (hne : x.digits ≠ []) :
    is_equal_to (create_str (to_string x)) x = true ∧ to_string zero = [] := by
  refine ⟨?_, rfl⟩
  obtain ⟨hwf, hlast, _⟩ := hx
  set ds := x.digits with hds
  set D := ds.getLast hne with hD
  set ds2 := ds.dropLast with hds2
  have hdec : ds2 ++ [D] = ds := List.dropLast_append_getLast hne
  have hDne : D ≠ 0 := by
    intro h0
    exact hlast (by rw [List.getLast?_eq_getLast ds hne, ← hD, h0])
  have hDlt : D < 2 ^ 32 := hwf D (List.getLast_mem hne)
  have hwf2 : ∀ d ∈ ds2, d < 2 ^ 32 := fun d hd =>
    hwf d ((List.dropLast_sublist ds).subset hd)
  have hrev : ds.reverse = D :: ds2.reverse := by
    rw [← hdec]
    simp
  -- the printed text
  set t := (nibsBE D).dropWhile (fun m => decide (m = 0)) with ht
  have htne : t ≠ [] := by
    rw [ht, Ne, List.dropWhile_eq_nil_iff]
    exact nibsBE_not_all_zero D hDlt hDne
  have htlt : ∀ n ∈ t, n < 16 := fun n hn =>
    nibsBE_lt D n ((List.dropWhile_sublist _).subset hn)
  have htlen : t.length ≤ 8 := by
    have := (List.dropWhile_sublist (fun m => decide (m = 0)) (l := nibsBE D)).length_le
    simpa [nibsBE] using this
  have hshape : to_string x =
      (if x.is_negative then ['-'] else []) ++
        (t ++ nibStreamBE ds2.reverse).map (get_digit_character · true) := by
    rw [to_string, hex_string_shape, hrev,
      show nibStreamBE (D :: ds2.reverse) = nibsBE D ++ nibStreamBE ds2.reverse from rfl,
      dropWhile_append_left _ _ _ (nibsBE_not_all_zero D hDlt hDne)]
  -- parsing the digit part recovers the digits
  have hparse : digits_from_hex_string
      ((t ++ nibStreamBE ds2.reverse).map (get_digit_character · true)) = ds := by
    rw [digits_from_hex_string, ← List.map_reverse, List.reverse_append,
      nibStreamBE_reverse, List.reverse_reverse, List.map_append,
      dfh_nibStream ds2 _ [] hwf2, List.nil_append]
    have hpack : packLE t.reverse = D := packLE_dropWhile_nibsBE D hDlt
    have htrevlt : ∀ n ∈ t.reverse, n < 16 := fun n hn =>
      htlt n (List.mem_reverse.mp hn)
    rcases Nat.lt_or_ge t.length 8 with hlt | hge
    · rw [dfh_tail t.reverse 0 0 ds2 (by simpa using hlt) htrevlt (by norm_num)]
      rw [show (0 : Nat) + 16 ^ 0 * packLE t.reverse = packLE t.reverse by ring, hpack,
        if_pos hDne, hdec]
    · have h8 : t.length = 8 := le_antisymm htlen hge
      have htfull : t = nibsBE D := by
        have hlen2 : ((nibsBE D).takeWhile fun m => decide (m = 0)).length + t.length =
            (nibsBE D).length := by
          rw [ht, ← List.length_append, List.takeWhile_append_dropWhile]
        have hlen3 : (nibsBE D).length = 8 := by simp [nibsBE]
        have h0 : ((nibsBE D).takeWhile fun m => decide (m = 0)).length = 0 := by omega
        have h3 := List.takeWhile_append_dropWhile (p := fun m => decide (m = 0)) (l := nibsBE D)
        rw [List.length_eq_zero.mp h0, List.nil_append] at h3
        rw [ht, h3]
      have : dfh_loop ((t.reverse.map (get_digit_character · true)) ++ []) 0 0 ds2 =
          dfh_loop [] 0 0 (ds2 ++ [packLE t.reverse]) :=
        dfh_group t.reverse [] ds2 (by simp [h8]) htrevlt
      rw [List.append_nil] at this
      rw [this, hpack, show dfh_loop [] 0 0 (ds2 ++ [D]) = ds2 ++ [D] from by simp [dfh_loop],
        hdec]
  -- assemble, by sign
  cases hneg : x.is_negative with
  | true =>
    rw [hshape, hneg, if_pos rfl]
    have hcreate : create_str ('-' ::
        (t ++ nibStreamBE ds2.reverse).map (get_digit_character · true)) =
        create ((t ++ nibStreamBE ds2.reverse).map (get_digit_character · true)
          |> digits_from_hex_string) true := by
      simp [create_str]
    rw [List.singleton_append, hcreate, hparse]
    rw [is_equal_to]
    simp [create, hne, hneg, hds]
  | false =>
    rw [hshape, hneg, if_neg (by simp), List.nil_append]
    obtain ⟨t0, t1, ht01⟩ := List.exists_cons_of_ne_nil htne
    have ht0lt : t0 < 16 := htlt t0 (by rw [ht01]; simp)
    have hht : (t ++ nibStreamBE ds2.reverse).map (get_digit_character · true) =
        get_digit_character t0 true ::
          ((t1 ++ nibStreamBE ds2.reverse).map (get_digit_character · true)) := by
      rw [ht01]
      simp
    have hcreate : create_str
        ((t ++ nibStreamBE ds2.reverse).map (get_digit_character · true)) =
        create (digits_from_hex_string
          ((t ++ nibStreamBE ds2.reverse).map (get_digit_character · true))) false := by
      rw [hht, create_str]
      rw [if_neg (character_not_sign t0 ht0lt), ← hht]
    rw [hcreate, hparse]
    rw [is_equal_to]
    simp [create, hne, hneg, hds]

/-- C8 witness: a concrete canonical negative two-digit value. -/
theorem hex_round_trip_witness :
    canonical ⟨[171, 12], true⟩ ∧
      (is_equal_to (create_str (to_string ⟨[171, 12], true⟩)) ⟨[171, 12], true⟩ = true ∧
        to_string zero = []) :=
  ⟨by decide, hex_round_trip ⟨[171, 12], true⟩ (by decide) (by decide)⟩

/-- C9: `divide` signals `DivisionByZero` (modelled as `none`) exactly when
the divisor's value is zero; for a canonical nonzero divisor it always
returns a quotient/remainder pair. -/
theorem divide_none_iff_divisor_zero (x y : integer) (hy : canonical y) :
    divide x y = none ↔ toInt y = 0 := by
  unfold divide
  by_cases h : is_equal_to y zero = true
  · have hd : y.digits = [] := (is_equal_to_zero_iff y).mp h
    simp only [h, if_true]
    simp [toInt_eq_zero_iff, hd, fromDigits]
  · have hd : y.digits ≠ [] := fun hh => h ((is_equal_to_zero_iff y).mpr hh)
    have hv : fromDigits y.digits ≠ 0 := fromDigits_ne_zero y.digits hd hy.2.1
    simp only [h]
    constructor
    · intro hcontra
      rw [if_neg (by simp [h])] at hcontra
      split at hcontra <;> simp at hcontra
    · intro hz
      exact absurd ((toInt_eq_zero_iff y).mp hz) hv

/-- C9 witness: a concrete canonical nonzero divisor. -/
theorem divide_none_iff_divisor_zero_witness :
    canonical ⟨[5], false⟩ ∧
      (divide ⟨[7], false⟩ ⟨[5], false⟩ = none ↔ toInt ⟨[5], false⟩ = 0) :=
  ⟨by decide, divide_none_iff_divisor_zero ⟨[7], false⟩ ⟨[5], false⟩ (by decide)⟩

/-- C10: a value with an empty digit vector and `negative = true` (such as
`negate(zero)` or `shift_right` of a negative value past its length)
prints as the one-character string `"-"`, yet compares equal to zero. -/
theorem to_string_of_negative_zero (x : integer) (h1 : x.digits = [])
    (h2 : x.is_negative = true) :
    to_string x = ['-'] ∧ is_equal_to x zero = true := by
  obtain ⟨ds, neg⟩ := x
  simp only at h1 h2
  subst h1; subst h2
  decide

/-- C10 witness: `negate(zero)` is such a value. -/
theorem to_string_of_negative_zero_witness :
    to_string (negate zero) = ['-'] ∧ is_equal_to (negate zero) zero = true :=
  to_string_of_negative_zero (negate zero) rfl rfl

end IntTitan
